import Mathlib

/-!
Verification of the `moles` documentation agent (TypeScript).

Shallow embedding of the agent coordinator (`src/agent/index.ts`), the
planner (`src/agent/planner.ts`), the reflector (`src/agent/reflector.ts`),
the executor's inner ReAct loop (`src/agent/executor.ts`), the memory
manager (`src/agent/memory.ts`) and the tool registry (`src/tools/index.ts`).

Stateful TypeScript methods become pure functions from the touched state to
the new state; the LLM gateway is modelled as an input stream of responses;
`JSON.parse` is modelled by an executable JSON parser; JS `Array` operations
(`push`, `slice`, `findIndex`, `filter`, `includes`) are modelled on `List`.
-/

namespace Moles

/-! ### JS array helpers

`findIndexP` models JS `Array.prototype.findIndex` (first matching index),
except that the JS `-1` sentinel is `none`. -/

def findIndexP (p : α → Bool) : List α → Option Nat
  | [] => none
  | x :: xs => if p x then some 0 else (findIndexP p xs).map (· + 1)

theorem findIndexP_lt_length {p : α → Bool} {l : List α} {i : Nat}
    (h : findIndexP p l = some i) : i < l.length := by
  induction l generalizing i with
  | nil => simp [findIndexP] at h
  | cons x xs ih =>
    simp only [findIndexP] at h
    by_cases hx : p x
    · simp [hx] at h
      simp [← h]
    · simp [hx] at h
      obtain ⟨j, hj, rfl⟩ := h
      have := ih hj
      simp; omega

theorem findIndexP_eq_none {p : α → Bool} {l : List α}
    (h : ∀ x ∈ l, ¬ p x) : findIndexP p l = none := by
  induction l with
  | nil => rfl
  | cons x xs ih =>
    simp only [findIndexP]
    have hx := h x (by simp)
    simp [hx]
    exact ih fun y hy => h y (by simp [hy])

theorem findIndexP_append_of_none {p : α → Bool} {l₁ l₂ : List α}
    (h : ∀ x ∈ l₁, ¬ p x) :
    findIndexP p (l₁ ++ l₂) = (findIndexP p l₂).map (· + l₁.length) := by
  induction l₁ with
  | nil => simp [Option.map_id']
  | cons x xs ih =>
    have hx : p x = false := by
      have := h x (by simp); simpa using this
    simp only [List.cons_append, findIndexP, hx, Bool.false_eq_true, if_false,
      List.append_eq]
    rw [ih fun y hy => h y (by simp [hy])]
    cases findIndexP p l₂ with
    | none => simp
    | some v => simp; omega

theorem findIndexP_min {p : α → Bool} {l : List α} {i : Nat}
    (h : findIndexP p l = some i) :
    ∀ j, j < i → ∀ (hj : j < l.length), ¬ p (l.get ⟨j, hj⟩) := by
  induction l generalizing i with
  | nil => simp [findIndexP] at h
  | cons x xs ih =>
    simp only [findIndexP] at h
    by_cases hx : p x
    · simp [hx] at h; omega
    · simp [hx] at h
      obtain ⟨k, hk, rfl⟩ := h
      intro j hj hjl
      cases j with
      | zero => simpa using hx
      | succ j =>
        have := ih hk j (by omega) (by simpa using hjl)
        simpa using this

theorem findIndexP_eq_some_of (p : α → Bool) (l : List α) (d : α) (i : Nat)
    (h1 : i < l.length) (h2 : p (l.getD i d))
    (h3 : ∀ j, j < i → ¬ p (l.getD j d)) :
    findIndexP p l = some i := by
  induction l generalizing i with
  | nil => simp at h1
  | cons x xs ih =>
    cases i with
    | zero =>
      rw [List.getD_cons_zero] at h2
      simp [findIndexP, h2]
    | succ j =>
      have hx : ¬ p x = true := by
        have := h3 0 (by omega)
        rwa [List.getD_cons_zero] at this
      simp only [findIndexP]
      rw [if_neg hx]
      rw [ih j (by simpa using h1) (by rwa [List.getD_cons_succ] at h2)
        (fun k hk => by
          have := h3 (k + 1) (by omega)
          rwa [List.getD_cons_succ] at this)]
      rfl

theorem le_findIndexP_of_fail (p : α → Bool) (l : List α) (d : α) (c : Nat)
    (h : ∀ j, j < c → ¬ p (l.getD j d)) {i : Nat}
    (hfi : findIndexP p l = some i) : c ≤ i := by
  induction l generalizing c i with
  | nil => simp [findIndexP] at hfi
  | cons x xs ih =>
    cases c with
    | zero => omega
    | succ c' =>
      have hx : ¬ p x = true := by
        have := h 0 (by omega)
        rwa [List.getD_cons_zero] at this
      simp only [findIndexP] at hfi
      rw [if_neg hx] at hfi
      simp only [Option.map_eq_some'] at hfi
      obtain ⟨j, hj, rfl⟩ := hfi
      have := ih c' (fun k hk => by
        have := h (k + 1) (by omega)
        rwa [List.getD_cons_succ] at this) hj
      omega

/-! ### Agent coordinator (`src/agent/index.ts`)

The coordinator state machine.  `Agent.run` is a while loop over the phase;
each body execution runs one phase, increments the iteration counter and,
when the counter has reached `maxIterations`, forces the phase to
`generating`.  The Reflector's verdict on the `iterations`-th body execution
is taken from the stream `sc` (for claim C1 it is constantly `true`). -/

inductive Phase where
  | planning | executing | reflecting | generating | done
  deriving DecidableEq, Repr

structure AgentState where
  phase : Phase
  iterations : Nat
  maxIterations : Nat
  deriving DecidableEq, Repr

/-- One execution of the body of the `while (phase !== "done")` loop of
`Agent.run`.  When the phase is already `done` the loop body is not entered,
which we model as the identity. -/
def agentStep (sc : Nat → Bool) (s : AgentState) : AgentState :=
  if s.phase = .done then s
  else
    let phase' : Phase :=
      match s.phase with
      | .planning => .executing
      | .executing => .reflecting
      | .reflecting => if sc s.iterations then .executing else .generating
      | .generating => .done
      | .done => .done
    let iterations' := s.iterations + 1
    { s with
      phase := if s.maxIterations ≤ iterations' then .generating else phase'
      iterations := iterations' }

/-- The coordinator state after `n` executions of the loop body of
`Agent.run`, started from the constructor's initial state
(`phase = planning`, `iterations = 0`) with the given `maxIterations`. -/
def agentRun (sc : Nat → Bool) (maxIter : Nat) : Nat → AgentState
  | 0 => ⟨.planning, 0, maxIter⟩
  | n + 1 => agentStep sc (agentRun sc maxIter n)

/-- Once the iteration cap has been reached, the forced transition rewrites
every subsequent phase (including `done`) back to `generating`, so the state
is stuck at `generating` forever. -/
theorem agentRun_stuck_generating (n : Nat) (h : 10 ≤ n) :
    agentRun (fun _ => true) 10 n = ⟨.generating, n, 10⟩ := by
  induction n with
  | zero => omega
  | succ k ih =>
    rcases Nat.lt_or_ge k 10 with hk | hk
    · have hk10 : k + 1 = 10 := by omega
      rw [hk10]
      decide
    · rw [agentRun, ih hk]
      simp [agentStep, show (10:Nat) ≤ k + 1 from by omega]

/-- **C1.** The claim states that with `maxIterations = 10` and a Reflector
that always returns `shouldContinue = true`, the coordinator reaches the
`done` phase after at most 10 phase transitions.  The code does the
opposite: the safety-valve check runs after *every* phase, including the
generating phase, so once the counter reaches the cap the assignment
`phase = "generating"` also overwrites the `done` produced by
`generatePhase`, and the `while (phase !== "done")` loop never exits.  This
theorem proves that after any number `n` of loop-body executions the phase
is never `done`, i.e. `Agent.run` diverges on exactly the scenario the
claim describes. -/
theorem C1_agent_run_never_reaches_done (n : Nat) :
    (agentRun (fun _ => true) 10 n).phase ≠ Phase.done := by
  rcases Nat.lt_or_ge n 10 with h | h
  · interval_cases n <;> decide
  · rw [agentRun_stuck_generating n h]
    simp

/-! ### Executor inner ReAct loop (`src/agent/executor.ts`, `executeStep`)

The gateway is modelled as a stream `resp : Nat → LLMResponse`: `resp i` is
the response to the `i+1`-st `client.chat` call of the loop.  The loop is
`while (iterations < maxReactIterations)`, incrementing `iterations` at the
top of the body and breaking when the response has
`finishReason === 'stop' && toolCalls.length === 0`.  `reactGo` returns the
final value of `iterations`, i.e. the number of body executions. -/

structure LLMResponse where
  finishReason : String
  numToolCalls : Nat

/-- The break condition of the inner loop: a terminal finish signal together
with zero tool invocations. -/
def isTerminal (r : LLMResponse) : Bool :=
  r.finishReason = "stop" && r.numToolCalls = 0

/-- `reactGo resp i fuel` runs the loop from `iterations = i` while the
remaining budget is `fuel = maxReactIterations - i`, returning the final
iteration count. -/
def reactGo (resp : Nat → LLMResponse) : Nat → Nat → Nat
  | i, 0 => i
  | i, fuel + 1 => if isTerminal (resp i) then i + 1 else reactGo resp (i + 1) fuel

/-- The number of inner-loop iterations `executeStep` performs against the
response stream `resp`, with the hard cap `maxReactIterations = 20`. -/
def reactIterations (resp : Nat → LLMResponse) : Nat :=
  reactGo resp 0 20

theorem reactGo_le (resp : Nat → LLMResponse) :
    ∀ fuel i, reactGo resp i fuel ≤ i + fuel := by
  intro fuel
  induction fuel with
  | zero => intro i; simp [reactGo]
  | succ f ih =>
    intro i
    simp only [reactGo]
    by_cases h : isTerminal (resp i)
    · rw [if_pos h]; omega
    · rw [if_neg h]
      have := ih (i + 1)
      omega

theorem reactGo_of_no_terminal (resp : Nat → LLMResponse)
    (h : ∀ k, ¬ isTerminal (resp k)) :
    ∀ fuel i, reactGo resp i fuel = i + fuel := by
  intro fuel
  induction fuel with
  | zero => intro i; simp [reactGo]
  | succ f ih =>
    intro i
    simp only [reactGo]
    rw [if_neg (h i), ih (i + 1)]
    omega

theorem reactGo_lt_iff (resp : Nat → LLMResponse) :
    ∀ fuel i, reactGo resp i fuel < i + fuel ↔
      ∃ k, i ≤ k ∧ k + 1 < i + fuel ∧ isTerminal (resp k) := by
  intro fuel
  induction fuel with
  | zero =>
    intro i
    simp only [reactGo, Nat.add_zero, Nat.lt_irrefl, false_iff]
    rintro ⟨k, hk, hk2, -⟩
    omega
  | succ f ih =>
    intro i
    simp only [reactGo]
    by_cases h : isTerminal (resp i)
    · rw [if_pos h]
      constructor
      · intro hlt
        exact ⟨i, Nat.le_refl i, by omega, h⟩
      · rintro ⟨k, hk, hk2, -⟩
        omega
    · rw [if_neg h]
      rw [show i + (f + 1) = (i + 1) + f from by omega, ih (i + 1)]
      constructor
      · rintro ⟨k, hk, hk2, hterm⟩
        exact ⟨k, by omega, by omega, hterm⟩
      · rintro ⟨k, hk, hk2, hterm⟩
        refine ⟨k, ?_, by omega, hterm⟩
        rcases Nat.eq_or_lt_of_le hk with rfl | hlt
        · exact absurd hterm (by simpa using h)
        · omega

/-- **C4.** The inner ReAct loop of `executeStep` performs at most 20
iterations for every response stream; it performs fewer than 20 exactly
when one of the first 19 responses carries `finishReason = "stop"` together
with zero tool invocations; and when every response carries at least one
tool call it runs exactly to the 20-iteration cap. -/
theorem C4_react_loop_bounded (resp : Nat → LLMResponse) :
    reactIterations resp ≤ 20 ∧
    (reactIterations resp < 20 ↔ ∃ k, k < 19 ∧ isTerminal (resp k)) ∧
    ((∀ k, 0 < (resp k).numToolCalls) → reactIterations resp = 20) := by
  refine ⟨?_, ?_, ?_⟩
  · simpa using reactGo_le resp 20 0
  · have := reactGo_lt_iff resp 20 0
    simp only [Nat.zero_add, Nat.zero_le, true_and] at this
    rw [reactIterations, this]
    constructor
    · rintro ⟨k, hk, hterm⟩; exact ⟨k, by omega, hterm⟩
    · rintro ⟨k, hk, hterm⟩; exact ⟨k, by omega, hterm⟩
  · intro h
    have hnt : ∀ k, ¬ isTerminal (resp k) := by
      intro k
      have := h k
      simp [isTerminal]
      intro _
      omega
    simpa using reactGo_of_no_terminal resp hnt 20 0

/-- Witness for C4: a gateway that always returns a tool call drives the
loop to exactly the 20-iteration cap. -/
theorem C4_react_loop_bounded_witness :
    reactIterations (fun _ => ⟨"tool_calls", 1⟩) = 20 :=
  (C4_react_loop_bounded (fun _ => ⟨"tool_calls", 1⟩)).2.2 (fun _ => by decide)

/-! ### Planner (`src/agent/planner.ts`)

`adjustPlan(plan, reflection)` mutates the plan in place; we model it as a
function from the old plan to the new one.  `MAX_ADJUSTMENT_STEPS = 3`. -/

inductive StepStatus where
  | pending | in_progress | completed | skipped
  deriving DecidableEq, Repr

structure PlanStep where
  id : Nat
  action : String
  target : String
  reason : String
  status : StepStatus
  deriving DecidableEq, Repr

structure Plan where
  overview : String
  steps : List PlanStep
  focusAreas : List String
  currentStepIndex : Nat
  deriving DecidableEq, Repr

structure ReflectionResult where
  isComplete : Bool
  completeness : Int
  missingAreas : List String
  suggestions : List String
  shouldContinue : Bool
  deriving DecidableEq, Repr

/-- Default element handed to `List.getD`; its status is deliberately not
`pending` so that out-of-range reads cannot satisfy a pending-ness claim. -/
def dStep : PlanStep := ⟨0, "", "", "", .completed⟩

/-- `Planner.adjustPlan`: take the first `MAX_ADJUSTMENT_STEPS = 3` missing
areas, append one pending step per area (`id = steps.length + index + 1`),
and reset `currentStepIndex` to the first pending step's index when one
exists (JS `findIndex` returns `-1`, modelled by `none`, when none does). -/
def adjustPlan (plan : Plan) (reflection : ReflectionResult) : Plan :=
  let missingAreas := reflection.missingAreas.take 3
  let newSteps : List PlanStep := missingAreas.mapIdx fun index area =>
    { id := plan.steps.length + index + 1
      action := "Analyze " ++ area
      target := area
      reason := "Identified as missing in reflection"
      status := .pending }
  let steps' := plan.steps ++ newSteps
  let currentStepIndex' :=
    match findIndexP (fun s => s.status == StepStatus.pending) steps' with
    | some i => i
    | none => plan.currentStepIndex
  { plan with steps := steps', currentStepIndex := currentStepIndex' }

/-- A sequence of `adjustPlan` calls. -/
def adjustPlanSeq (plan : Plan) (rs : List ReflectionResult) : Plan :=
  rs.foldl adjustPlan plan

theorem adjustPlan_steps (p : Plan) (r : ReflectionResult) :
    (adjustPlan p r).steps =
      p.steps ++ ((r.missingAreas.take 3).mapIdx fun index area =>
        { id := p.steps.length + index + 1
          action := "Analyze " ++ area
          target := area
          reason := "Identified as missing in reflection"
          status := .pending }) := rfl

theorem adjustPlan_cursor (p : Plan) (r : ReflectionResult) :
    (adjustPlan p r).currentStepIndex =
      match findIndexP (fun s => s.status == StepStatus.pending) (adjustPlan p r).steps with
      | some i => i
      | none => p.currentStepIndex := rfl

/-- **C6.** `adjustPlan` appends exactly `min 3 (missingAreas.length)` new
steps; each new step is `pending`, with `action = "Analyze " ++ area` and
`target = area` for the corresponding entry among the first three missing
areas; the cursor is reset to the index of the first pending step when one
exists, and is left unchanged when no step is pending. -/
theorem C6_adjustPlan_cap_and_cursor_reset (p : Plan) (r : ReflectionResult) :
    (adjustPlan p r).steps.length = p.steps.length + min 3 r.missingAreas.length ∧
    (∀ i, i < min 3 r.missingAreas.length →
      ((adjustPlan p r).steps.getD (p.steps.length + i) dStep).status = .pending ∧
      ((adjustPlan p r).steps.getD (p.steps.length + i) dStep).action
        = "Analyze " ++ (r.missingAreas.take 3).getD i "" ∧
      ((adjustPlan p r).steps.getD (p.steps.length + i) dStep).target
        = (r.missingAreas.take 3).getD i "") ∧
    (∀ i, i < (adjustPlan p r).steps.length →
      ((adjustPlan p r).steps.getD i dStep).status = .pending →
      (∀ j, j < i → ((adjustPlan p r).steps.getD j dStep).status ≠ .pending) →
      (adjustPlan p r).currentStepIndex = i) ∧
    ((∀ s ∈ (adjustPlan p r).steps, s.status ≠ .pending) →
      (adjustPlan p r).currentStepIndex = p.currentStepIndex) := by
  have hlen : (adjustPlan p r).steps.length
      = p.steps.length + min 3 r.missingAreas.length := by
    rw [adjustPlan_steps, List.length_append, List.length_mapIdx, List.length_take]
  refine ⟨hlen, ?_, ?_, ?_⟩
  · intro i hi
    have hlt : i < ((r.missingAreas.take 3).mapIdx fun index area =>
        (⟨p.steps.length + index + 1, "Analyze " ++ area, area,
          "Identified as missing in reflection", .pending⟩ : PlanStep)).length := by
      rw [List.length_mapIdx, List.length_take]; exact hi
    have hlt' : i < (r.missingAreas.take 3).length := by
      rw [List.length_take]; exact hi
    rw [adjustPlan_steps, List.getD_append_right _ _ _ _ (Nat.le_add_right _ _),
      Nat.add_sub_cancel_left, List.getD_eq_getElem _ _ hlt]
    have := List.get_mapIdx (r.missingAreas.take 3)
      (fun index area => (⟨p.steps.length + index + 1, "Analyze " ++ area, area,
        "Identified as missing in reflection", .pending⟩ : PlanStep)) i hlt'
    rw [show ((r.missingAreas.take 3).mapIdx fun index area =>
        (⟨p.steps.length + index + 1, "Analyze " ++ area, area,
          "Identified as missing in reflection", .pending⟩ : PlanStep))[i]
      = ((r.missingAreas.take 3).mapIdx fun index area =>
        (⟨p.steps.length + index + 1, "Analyze " ++ area, area,
          "Identified as missing in reflection", .pending⟩ : PlanStep)).get ⟨i, hlt⟩ from rfl,
      this]
    rw [List.getD_eq_getElem _ _ hlt']
    exact ⟨rfl, rfl, rfl⟩
  · intro i hi hpend hmin
    have hfi : findIndexP (fun s => s.status == StepStatus.pending)
        (adjustPlan p r).steps = some i := by
      apply findIndexP_eq_some_of _ _ dStep _ hi
      · simpa [beq_iff_eq] using hpend
      · intro j hj
        simpa [beq_iff_eq] using hmin j hj
    rw [adjustPlan_cursor, hfi]
  · intro hnone
    have hfi : findIndexP (fun s => s.status == StepStatus.pending)
        (adjustPlan p r).steps = none := by
      apply findIndexP_eq_none
      intro x hx
      simpa [beq_iff_eq] using hnone x hx
    rw [adjustPlan_cursor, hfi]

/-- Concrete inputs for the C6 witness: an exhausted plan and a reflection
listing five missing areas. -/
def planC6 : Plan := ⟨"p", [], [], 0⟩

def reflC6 : ReflectionResult := ⟨false, 40, ["a", "b", "c", "d", "e"], [], true⟩

/-- Witness for C6: a reflection with five missing areas appends exactly
three steps, and the cursor is reset to the first pending step (index 0). -/
theorem C6_adjustPlan_cap_and_cursor_reset_witness :
    (adjustPlan planC6 reflC6).steps.length
      = planC6.steps.length + min 3 reflC6.missingAreas.length ∧
    (adjustPlan planC6 reflC6).currentStepIndex = 0 :=
  ⟨(C6_adjustPlan_cap_and_cursor_reset planC6 reflC6).1,
   (C6_adjustPlan_cap_and_cursor_reset planC6 reflC6).2.2.1 0 (by decide) (by decide)
     (fun j hj => absurd hj (Nat.not_lt_zero j))⟩

/-- Concrete input for the C2 counterexample: a plan whose cursor (1) sits
past a step that is still `pending`.  JS nothing in `adjustPlan` forbids
this shape; the claim quantifies over every plan. -/
def planC2 : Plan := ⟨"p", [⟨1, "Analyze entry", "index.ts", "entry point", .pending⟩], [], 1⟩

def reflC2 : ReflectionResult := ⟨false, 50, [], [], true⟩

/-- **C2 counterexample.** The claim asserts the cursor never decreases
under `adjustPlan` for *any* plan.  On a plan whose cursor is 1 while the
step at index 0 is still `pending`, `adjustPlan` resets the cursor to the
first pending index 0 < 1, so the cursor decreases. -/
theorem C2_cursor_can_decrease :
    (adjustPlan planC2 reflC2).currentStepIndex < planC2.currentStepIndex := by
  decide

theorem adjustPlan_mono (p : Plan) (r : ReflectionResult)
    (h1 : p.currentStepIndex ≤ p.steps.length)
    (h2 : ∀ j, j < p.currentStepIndex → (p.steps.getD j dStep).status ≠ .pending) :
    p.steps.length ≤ (adjustPlan p r).steps.length ∧
    (adjustPlan p r).steps.take p.steps.length = p.steps ∧
    p.currentStepIndex ≤ (adjustPlan p r).currentStepIndex ∧
    (adjustPlan p r).currentStepIndex ≤ (adjustPlan p r).steps.length ∧
    (∀ j, j < (adjustPlan p r).currentStepIndex →
      ((adjustPlan p r).steps.getD j dStep).status ≠ .pending) := by
  have hlen : p.steps.length ≤ (adjustPlan p r).steps.length := by
    rw [adjustPlan_steps, List.length_append]
    omega
  have htake : (adjustPlan p r).steps.take p.steps.length = p.steps := by
    rw [adjustPlan_steps]
    exact List.take_left p.steps _
  have hpre : ∀ j, j < p.steps.length →
      ((adjustPlan p r).steps.getD j dStep) = p.steps.getD j dStep := by
    intro j hj
    rw [adjustPlan_steps]
    exact List.getD_append _ _ _ _ hj
  refine ⟨hlen, htake, ?_⟩
  rcases hfi : findIndexP (fun s => s.status == StepStatus.pending) (adjustPlan p r).steps
    with - | i
  · rw [adjustPlan_cursor, hfi]
    refine ⟨Nat.le_refl _, Nat.le_trans h1 hlen, ?_⟩
    intro j hj
    rw [hpre j (Nat.lt_of_lt_of_le hj h1)]
    exact h2 j hj
  · have hcur : (adjustPlan p r).currentStepIndex = i := by
      rw [adjustPlan_cursor, hfi]
    have hle : p.currentStepIndex ≤ i := by
      apply le_findIndexP_of_fail _ _ dStep _ _ hfi
      intro j hj
      rw [hpre j (Nat.lt_of_lt_of_le hj h1)]
      simpa [beq_iff_eq] using h2 j hj
    have hilt : i < (adjustPlan p r).steps.length := findIndexP_lt_length hfi
    refine ⟨hcur ▸ hle, hcur ▸ Nat.le_of_lt hilt, ?_⟩
    intro j hj
    rw [hcur] at hj
    have hjl : j < (adjustPlan p r).steps.length := Nat.lt_trans hj hilt
    have := findIndexP_min hfi j hj hjl
    rw [List.getD_eq_getElem _ dStep hjl]
    simpa [beq_iff_eq] using this

theorem adjustPlanSeq_mono (rs : List ReflectionResult) (p : Plan)
    (h1 : p.currentStepIndex ≤ p.steps.length)
    (h2 : ∀ j, j < p.currentStepIndex → (p.steps.getD j dStep).status ≠ .pending) :
    p.steps.length ≤ (adjustPlanSeq p rs).steps.length ∧
    (adjustPlanSeq p rs).steps.take p.steps.length = p.steps ∧
    p.currentStepIndex ≤ (adjustPlanSeq p rs).currentStepIndex := by
  induction rs generalizing p with
  | nil => exact ⟨Nat.le_refl _, List.take_length p.steps, Nat.le_refl _⟩
  | cons r rest ih =>
    have hm := adjustPlan_mono p r h1 h2
    have hrec := ih (adjustPlan p r) hm.2.2.2.1 hm.2.2.2.2
    have hseq : adjustPlanSeq p (r :: rest) = adjustPlanSeq (adjustPlan p r) rest := rfl
    rw [hseq]
    refine ⟨Nat.le_trans hm.1 hrec.1, ?_, Nat.le_trans hm.2.2.1 hrec.2.2⟩
    have := hrec.2.1
    calc (adjustPlanSeq (adjustPlan p r) rest).steps.take p.steps.length
        = ((adjustPlanSeq (adjustPlan p r) rest).steps.take
            (adjustPlan p r).steps.length).take p.steps.length := by
          rw [List.take_take, Nat.min_eq_left hm.1]
      _ = (adjustPlan p r).steps.take p.steps.length := by rw [this]
      _ = p.steps := hm.2.1

/-- **C2 (amended).** For any plan and any sequence of `adjustPlan` calls,
the number of steps is non-decreasing and every pre-existing step (its `id`
and `status` included) is unchanged.  The cursor never decreases *provided*
the plan is well-formed in the way the executor maintains: the cursor is at
most the number of steps and no step before the cursor is still `pending`.
(The counterexample shows the cursor conjunct fails without that proviso.) -/
theorem C2_plan_monotonicity_amended (p : Plan) (rs : List ReflectionResult) :
    p.steps.length ≤ (adjustPlanSeq p rs).steps.length ∧
    (adjustPlanSeq p rs).steps.take p.steps.length = p.steps ∧
    (p.currentStepIndex ≤ p.steps.length →
      (∀ j, j < p.currentStepIndex → (p.steps.getD j dStep).status ≠ .pending) →
      p.currentStepIndex ≤ (adjustPlanSeq p rs).currentStepIndex) := by
  constructor
  · induction rs generalizing p with
    | nil => exact Nat.le_refl _
    | cons r rest ih =>
      have h1 : p.steps.length ≤ (adjustPlan p r).steps.length := by
        rw [adjustPlan_steps, List.length_append]; omega
      exact Nat.le_trans h1 (ih (adjustPlan p r))
  constructor
  · induction rs generalizing p with
    | nil => exact List.take_length p.steps
    | cons r rest ih =>
      have h1 : p.steps.length ≤ (adjustPlan p r).steps.length := by
        rw [adjustPlan_steps, List.length_append]; omega
      calc (adjustPlanSeq p (r :: rest)).steps.take p.steps.length
          = ((adjustPlanSeq (adjustPlan p r) rest).steps.take
              (adjustPlan p r).steps.length).take p.steps.length := by
            rw [List.take_take, Nat.min_eq_left h1]; rfl
        _ = (adjustPlan p r).steps.take p.steps.length := by rw [ih (adjustPlan p r)]
        _ = p.steps := by rw [adjustPlan_steps]; exact List.take_left p.steps _
  · intro h1 h2
    exact (adjustPlanSeq_mono rs p h1 h2).2.2

/-- Witness for C2 (amended): a well-formed plan (cursor 1, the single step
completed) keeps its step prefix and its cursor does not decrease under a
replanning call. -/
theorem C2_plan_monotonicity_amended_witness :
    (adjustPlanSeq
        ⟨"p", [⟨1, "Analyze entry", "index.ts", "entry point", .completed⟩], [], 1⟩
        [⟨false, 50, ["core"], [], true⟩]).steps.take 1
      = [⟨1, "Analyze entry", "index.ts", "entry point", .completed⟩] ∧
    1 ≤ (adjustPlanSeq
        ⟨"p", [⟨1, "Analyze entry", "index.ts", "entry point", .completed⟩], [], 1⟩
        [⟨false, 50, ["core"], [], true⟩]).currentStepIndex :=
  ⟨(C2_plan_monotonicity_amended
      ⟨"p", [⟨1, "Analyze entry", "index.ts", "entry point", .completed⟩], [], 1⟩
      [⟨false, 50, ["core"], [], true⟩]).2.1,
   (C2_plan_monotonicity_amended
      ⟨"p", [⟨1, "Analyze entry", "index.ts", "entry point", .completed⟩], [], 1⟩
      [⟨false, 50, ["core"], [], true⟩]).2.2 (by decide) (by decide)⟩

/-! ### Memory manager (`src/agent/memory.ts`)

`documentSections`, `insights` and `analyzedFiles` live in the `Memory`
record; each mutator touches exactly one field, so we model the mutators as
functions on that field's list.  The TS `DocCategory` is a string union and
is modelled as `String`. -/

structure DocSection where
  id : String
  title : String
  content : String
  category : String
  order : Nat
  deriving DecidableEq, Repr

/-- The section built by `MemoryManager.addDocSection`:
`id = category + "-" + documentSections.length` and `order` is the number of
sections already stored in the same category. -/
def newDocSection (sections : List DocSection) (title content category : String) :
    DocSection :=
  { id := category ++ "-" ++ toString sections.length
    title := title
    content := content
    category := category
    order := (sections.filter fun s => s.category == category).length }

def addDocSection (sections : List DocSection) (title content category : String) :
    List DocSection :=
  sections ++ [newDocSection sections title content category]

/-- A sequence of `addDocSection` calls (title, content, category). -/
def addDocSections (sections : List DocSection)
    (reqs : List (String × String × String)) : List DocSection :=
  reqs.foldl (fun m req => addDocSection m req.1 req.2.1 req.2.2) sections

/-- Per-category numbering invariant: within each category, the stored
`order` values are `0, 1, …, N-1` in insertion order. -/
def docOrderInv (m : List DocSection) : Prop :=
  ∀ c : String, (m.filter fun s => s.category == c).map (fun s => s.order)
    = List.range (m.filter fun s => s.category == c).length

theorem docOrderInv_nil : docOrderInv [] := by
  intro c
  simp

theorem docOrderInv_add (m : List DocSection) (t cn cat : String)
    (h : docOrderInv m) : docOrderInv (addDocSection m t cn cat) := by
  intro c
  by_cases hc : cat = c
  · subst hc
    have hcat : (newDocSection m t cn cat).category == cat := by
      simp [newDocSection]
    simp only [addDocSection, List.filter_append, List.filter_cons, hcat, if_true,
      List.filter_nil, List.map_append, List.length_append]
    rw [h cat]
    have horder : (newDocSection m t cn cat).order
        = (m.filter fun s => s.category == cat).length := rfl
    simp [horder, List.range_succ]
  · have hcat : ¬ ((newDocSection m t cn cat).category == c) = true := by
      simp [newDocSection]
      exact hc
    simp only [addDocSection, List.filter_append, List.filter_cons, hcat,
      Bool.false_eq_true, if_false, List.filter_nil, List.append_nil]
    exact h c

theorem docOrderInv_addDocSections (reqs : List (String × String × String))
    (m : List DocSection) (h : docOrderInv m) : docOrderInv (addDocSections m reqs) := by
  induction reqs generalizing m with
  | nil => exact h
  | cons r rest ih => exact ih _ (docOrderInv_add m r.1 r.2.1 r.2.2 h)

/-- Default section handed to `List.getD`. -/
def dSec : DocSection := ⟨"", "", "", "", 0⟩

/-- **C5.** Starting from the empty memory, after any sequence of
`addDocSection` calls the `order` values of the sections of any fixed
category are exactly `0, 1, …, N-1` in insertion order (`N` being the
number of sections of that category); and each inserted section's `id` is
`category ++ "-" ++ (total number of sections already stored)`. -/
theorem C5_doc_section_numbering :
    (∀ (reqs : List (String × String × String)) (c : String),
      ((addDocSections [] reqs).filter fun s => s.category == c).map (fun s => s.order)
        = List.range ((addDocSections [] reqs).filter fun s => s.category == c).length) ∧
    (∀ (m : List DocSection) (t cn cat : String),
      ((addDocSection m t cn cat).getD m.length dSec).id
        = cat ++ "-" ++ toString m.length) := by
  constructor
  · intro reqs c
    exact docOrderInv_addDocSections reqs [] docOrderInv_nil c
  · intro m t cn cat
    rw [addDocSection, List.getD_append_right _ _ _ _ (Nat.le_refl _), Nat.sub_self]
    rfl

/-- `MemoryManager.addInsight`: deduplicated insert by exact string
equality (`includes` / push). -/
def addInsight (insights : List String) (insight : String) : List String :=
  if insights.contains insight then insights else insights ++ [insight]

/-- **C7.** `addInsight` is a deduplicated, idempotent insert: re-adding a
present string changes nothing, adding an absent string appends it, a
repeated call is a no-op, and the insight count never decreases. -/
theorem C7_add_insight_idempotent (l : List String) (s : String) :
    (s ∈ l → addInsight l s = l) ∧
    (s ∉ l → addInsight l s = l ++ [s]) ∧
    addInsight (addInsight l s) s = addInsight l s ∧
    l.length ≤ (addInsight l s).length := by
  have hmem : l.contains s = true ↔ s ∈ l := by
    simp [List.contains]
  refine ⟨?_, ?_, ?_, ?_⟩
  · intro h
    rw [addInsight, if_pos (hmem.mpr h)]
  · intro h
    rw [addInsight, if_neg (fun hc => h (hmem.mp hc))]
  · have hin : s ∈ addInsight l s := by
      rw [addInsight]
      by_cases h : l.contains s
      · rw [if_pos h]; exact hmem.mp h
      · rw [if_neg h]; simp
    have : (addInsight l s).contains s = true := by
      simp [List.contains]
      exact hin
    rw [addInsight, if_pos this]
  · rw [addInsight]
    by_cases h : l.contains s
    · rw [if_pos h]
    · rw [if_neg h]; simp

/-- Witness for C7 at concrete inputs: re-adding `"x"` to `["x"]` is a
no-op, adding `"y"` appends it. -/
theorem C7_add_insight_idempotent_witness :
    addInsight ["x"] "x" = ["x"] ∧ addInsight ["x"] "y" = ["x", "y"] :=
  ⟨(C7_add_insight_idempotent ["x"] "x").1 (by decide),
   (C7_add_insight_idempotent ["x"] "y").2.1 (by decide)⟩

theorem findIndexP_none_forall {p : α → Bool} {l : List α}
    (h : findIndexP p l = none) : ∀ x ∈ l, ¬ p x := by
  induction l with
  | nil => simp
  | cons x xs ih =>
    simp only [findIndexP] at h
    by_cases hx : p x
    · rw [if_pos hx] at h; exact absurd h (by simp)
    · rw [if_neg hx] at h
      intro y hy
      rcases List.mem_cons.mp hy with rfl | hmem
      · exact hx
      · exact ih (by simpa using h) y hmem

/-- `AnalyzedFile` (`src/types.ts`); the optional `exports` and
`dependencies` arrays are modelled as `Option`s. -/
structure AnalyzedFile where
  path : String
  summary : String
  exports : Option (List String)
  dependencies : Option (List String)
  deriving DecidableEq, Repr

/-- `MemoryManager.markFileAnalyzed`: JS `findIndex` on the path, overwrite
in place on a hit, push otherwise. -/
def markFileAnalyzed (files : List AnalyzedFile) (file : AnalyzedFile) :
    List AnalyzedFile :=
  match findIndexP (fun f => f.path == file.path) files with
  | some i => files.set i file
  | none => files ++ [file]

/-- Default analyzed-file record handed to `List.getD`. -/
def dFile : AnalyzedFile := ⟨"", "", none, none⟩

/-- **C8.** `markFileAnalyzed` is an upsert keyed by the file path: when an
entry with the same path exists, some position is overwritten with the new
record, every other position is untouched, and the count is unchanged; when
none exists the record is appended and the count grows by one; the count
never decreases. -/
theorem C8_mark_file_analyzed_upsert (l : List AnalyzedFile) (f : AnalyzedFile) :
    ((∃ g ∈ l, g.path = f.path) →
      (markFileAnalyzed l f).length = l.length ∧
      ∃ i, i < l.length ∧ (markFileAnalyzed l f).getD i dFile = f ∧
        (∀ j, j ≠ i → (markFileAnalyzed l f).getD j dFile = l.getD j dFile)) ∧
    ((∀ g ∈ l, g.path ≠ f.path) → markFileAnalyzed l f = l ++ [f]) ∧
    l.length ≤ (markFileAnalyzed l f).length := by
  refine ⟨?_, ?_, ?_⟩
  · rintro ⟨g, hg, hpath⟩
    rcases hfi : findIndexP (fun x => x.path == f.path) l with - | i
    · exact absurd (by simpa [beq_iff_eq] using findIndexP_none_forall hfi g hg) (by simp [hpath])
    · have hi : i < l.length := findIndexP_lt_length hfi
      have hres : markFileAnalyzed l f = l.set i f := by
        rw [markFileAnalyzed, hfi]
      refine ⟨by rw [hres, List.length_set], i, hi, ?_, ?_⟩
      · rw [hres, List.getD_eq_getElem _ dFile (by simpa using hi)]
        exact List.getElem_set_self (by simpa using hi)
      · intro j hj
        rw [hres]
        by_cases hjl : j < l.length
        · rw [List.getD_eq_getElem _ dFile (by simpa using hjl),
            List.getD_eq_getElem _ dFile hjl]
          exact List.getElem_set_ne (fun h => hj h.symm) _
        · rw [List.getD_eq_default _ dFile (by simpa using Nat.le_of_not_lt hjl),
            List.getD_eq_default _ dFile (Nat.le_of_not_lt hjl)]
  · intro h
    have hfi : findIndexP (fun x => x.path == f.path) l = none := by
      apply findIndexP_eq_none
      intro x hx
      simpa [beq_iff_eq] using h x hx
    rw [markFileAnalyzed, hfi]
  · rcases hfi : findIndexP (fun x => x.path == f.path) l with - | i
    · rw [markFileAnalyzed, hfi, List.length_append]
      omega
    · rw [markFileAnalyzed, hfi, List.length_set]

/-- Witness for C8 at concrete inputs: re-marking an existing path
overwrites in place leaving the count at 2; a fresh path appends. -/
theorem C8_mark_file_analyzed_upsert_witness :
    (markFileAnalyzed [⟨"a.ts", "old", none, none⟩, ⟨"b.ts", "s", none, none⟩]
        ⟨"a.ts", "new", none, none⟩).length = 2 ∧
    markFileAnalyzed [⟨"a.ts", "old", none, none⟩] ⟨"c.ts", "s", none, none⟩
      = [⟨"a.ts", "old", none, none⟩, ⟨"c.ts", "s", none, none⟩] :=
  ⟨((C8_mark_file_analyzed_upsert
        [⟨"a.ts", "old", none, none⟩, ⟨"b.ts", "s", none, none⟩]
        ⟨"a.ts", "new", none, none⟩).1
      ⟨⟨"a.ts", "old", none, none⟩, by decide, by decide⟩).1,
   (C8_mark_file_analyzed_upsert [⟨"a.ts", "old", none, none⟩]
        ⟨"c.ts", "s", none, none⟩).2.1 (by decide)⟩

/-! ### Tool registry (`src/tools/index.ts`)

A tool's `execute` is `async` and may throw; we model it as a function into
`Except String (ToolResult δ)`, where `.error msg` is a thrown fault whose
message is `msg`.  The registry's `Map` is modelled as a partial lookup
`String → Option`.  `ToolResult` follows `src/types.ts` (`data?`/`error?`
optional fields); the `data` payload type is a parameter. -/

structure ToolResult (δ : Type) where
  success : Bool
  data : Option δ
  error : Option String
  deriving DecidableEq, Repr

/-- `ToolRegistry.execute`: unknown names yield a structured error naming
the tool; a fault thrown by the tool's `execute` is caught and returned as
`{success: false, error: message}`. -/
def registryExecute {α δ : Type}
    (tools : String → Option (α → Except String (ToolResult δ)))
    (name : String) (params : α) : ToolResult δ :=
  match tools name with
  | none => { success := false, data := none, error := some ("Unknown tool: " ++ name) }
  | some exec =>
    match exec params with
    | .ok r => r
    | .error msg => { success := false, data := none, error := some msg }

/-- **C9.** The registry boundary never raises: for every tool table, tool
name and parameter bag, `execute` returns a structured result — an unknown
name yields `{success: false, error: "Unknown tool: " ++ name}`, a thrown
internal fault is caught and returned as `{success: false, error: message}`,
and a normal return is passed through. -/
theorem C9_registry_never_raises {α δ : Type}
    (tools : String → Option (α → Except String (ToolResult δ)))
    (name : String) (params : α) :
    (tools name = none →
      registryExecute tools name params
        = ⟨false, none, some ("Unknown tool: " ++ name)⟩) ∧
    (∀ exec msg, tools name = some exec → exec params = .error msg →
      registryExecute tools name params = ⟨false, none, some msg⟩) ∧
    (∀ exec r, tools name = some exec → exec params = .ok r →
      registryExecute tools name params = r) := by
  refine ⟨?_, ?_, ?_⟩
  · intro h
    rw [registryExecute, h]
  · intro exec msg hlookup hthrow
    simp only [registryExecute, hlookup, hthrow]
  · intro exec r hlookup hok
    simp only [registryExecute, hlookup, hok]

/-- A one-tool table for the C9 witness: `"boom"` always throws. -/
def boomTable : String → Option (Unit → Except String (ToolResult String)) :=
  fun n => if n = "boom" then some (fun _ => .error "kaboom") else none

/-- Witness for C9: an unknown name and a throwing tool both come back as
structured failures. -/
theorem C9_registry_never_raises_witness :
    registryExecute boomTable "missing" ()
      = ⟨false, none, some ("Unknown tool: " ++ "missing")⟩ ∧
    registryExecute boomTable "boom" () = ⟨false, none, some "kaboom"⟩ :=
  ⟨(C9_registry_never_raises boomTable "missing" ()).1 rfl,
   (C9_registry_never_raises boomTable "boom" ()).2.1
     (fun _ => .error "kaboom") "kaboom" rfl rfl⟩

/-! ### `read_file` tool (`src/tools/index.ts`, lines 125-152)

The file system read is the tool's input here: `content` is what
`fs.readFile` returned on the happy path.  JS `slice` index clamping is
modelled by `jsSliceIndex`. -/

/-- Clamp a JS `slice` index to `[0, len]` (negative indices count from the
end). -/
def jsSliceIndex (len : Nat) (i : Int) : Nat :=
  if i < 0 then (max ((len : Int) + i) 0).toNat else (min i (len : Int)).toNat

/-- JS `Array.prototype.slice(s, e)`. -/
def jsSlice (l : List α) (s e : Int) : List α :=
  (l.take (jsSliceIndex l.length e)).drop (jsSliceIndex l.length s)

/-- The string returned by the `read_file` tool: the whole `content` when
`start_line` is absent; otherwise
`lines.slice(max 0 (start_line - 1), end_line ?? lines.length)` joined with
newlines. -/
def readFileData (content : String) (startLine endLine : Option Int) : String :=
  match startLine with
  | none => content
  | some sl =>
    let lines := content.splitOn "\n"
    let start := max 0 (sl - 1)
    let stop : Int :=
      match endLine with
      | some el => el
      | none => (lines.length : Int)
    String.intercalate "\n" (jsSlice lines start stop)

/-- The `read_file` tool's structured result on a successful file read. -/
def readFileExecute (content : String) (startLine endLine : Option Int) :
    ToolResult String :=
  { success := true, data := some (readFileData content startLine endLine), error := none }

/-- **C10.** When `start_line` is omitted, `read_file` returns the entire
content even when `end_line` is supplied; when `start_line` (1-indexed) is
supplied without `end_line`, the returned slice runs from `start_line`
through the last line. -/
theorem C10_read_file_line_ranges (content : String) (endLine : Option Int) :
    readFileExecute content none endLine = ⟨true, some content, none⟩ ∧
    (∀ s : Int, 1 ≤ s →
      readFileExecute content (some s) none
        = ⟨true, some (String.intercalate "\n"
            ((content.splitOn "\n").drop (s - 1).toNat)), none⟩) := by
  constructor
  · rfl
  · intro s hs
    have hmax : max 0 (s - 1) = s - 1 := by omega
    rw [readFileExecute, readFileData]
    rw [hmax]
    congr 2
    congr 1
    rw [jsSlice]
    have hstop : jsSliceIndex (content.splitOn "\n").length
        ((content.splitOn "\n").length : Int) = (content.splitOn "\n").length := by
      rw [jsSliceIndex]
      simp
    rw [hstop, List.take_length]
    have hstart : jsSliceIndex (content.splitOn "\n").length (s - 1)
        = min (s - 1).toNat (content.splitOn "\n").length := by
      rw [jsSliceIndex, if_neg (by omega)]
      omega
    rw [hstart]
    rcases Nat.le_total (s - 1).toNat (content.splitOn "\n").length with h | h
    · rw [Nat.min_eq_left h]
    · rw [Nat.min_eq_right h, List.drop_length, List.drop_eq_nil_of_le h]

/-- Witness for C10: on the three-line file `"a\nb\nc"`, omitting
`start_line` returns everything even with `end_line = 2`, and
`start_line = 2` without `end_line` returns from line 2 through the end. -/
theorem C10_read_file_line_ranges_witness :
    readFileExecute "a\nb\nc" none (some 2) = ⟨true, some "a\nb\nc", none⟩ ∧
    readFileExecute "a\nb\nc" (some 2) none
      = ⟨true, some (String.intercalate "\n"
          ((("a\nb\nc").splitOn "\n").drop ((2 : Int) - 1).toNat)), none⟩ :=
  ⟨(C10_read_file_line_ranges "a\nb\nc" (some 2)).1,
   (C10_read_file_line_ranges "a\nb\nc" (some 2)).2 2 (by decide)⟩

/-! ### JSON (model of `JSON.parse`)

`Reflector.reflect` calls `JSON.parse` on the substring matched by
`/\{[\s\S]*\}/`.  We model JSON values and give an executable
recursive-descent parser.  Model simplifications (noted where they apply):
numeric values keep only the integer part (the fraction/exponent syntax is
validated but not evaluated), and raw control characters inside string
literals are not rejected.  Parsing failure is `none`, matching a thrown
`SyntaxError`. -/

inductive Json where
  | null
  | bool (b : Bool)
  | num (n : Int)
  | str (s : String)
  | arr (elems : List Json)
  | obj (fields : List (String × Json))

/-- JSON whitespace. -/
def skipWs (cs : List Char) : List Char :=
  cs.dropWhile fun c => c == ' ' || c == '\t' || c == '\n' || c == '\r'

def isHexCh (c : Char) : Bool :=
  c.isDigit || ('a' ≤ c && c ≤ 'f') || ('A' ≤ c && c ≤ 'F')

def hexVal (c : Char) : Nat :=
  if c.isDigit then c.toNat - '0'.toNat
  else if 'a' ≤ c ∧ c ≤ 'f' then c.toNat - 'a'.toNat + 10
  else if 'A' ≤ c ∧ c ≤ 'F' then c.toNat - 'A'.toNat + 10
  else 0

def escapeChar (c : Char) : Option Char :=
  if c = '"' then some '"'
  else if c = '\\' then some '\\'
  else if c = '/' then some '/'
  else if c = 'b' then some (Char.ofNat 8)
  else if c = 'f' then some (Char.ofNat 12)
  else if c = 'n' then some '\n'
  else if c = 'r' then some '\r'
  else if c = 't' then some '\t'
  else none

/-- Body of a JSON string literal, after the opening quote; `acc` holds the
already-read characters in reverse. -/
def parseStringBody (acc : List Char) : List Char → Option (String × List Char)
  | [] => none
  | '"' :: rest => some (String.mk acc.reverse, rest)
  | '\\' :: 'u' :: h1 :: h2 :: h3 :: h4 :: rest =>
    if isHexCh h1 && isHexCh h2 && isHexCh h3 && isHexCh h4 then
      parseStringBody
        (Char.ofNat (((hexVal h1 * 16 + hexVal h2) * 16 + hexVal h3) * 16 + hexVal h4)
          :: acc) rest
    else none
  | '\\' :: e :: rest =>
    match escapeChar e with
    | some ec => parseStringBody (ec :: acc) rest
    | none => none
  | '\\' :: [] => none
  | c :: rest => parseStringBody (c :: acc) rest

def digitsToNat (ds : List Char) : Nat :=
  ds.foldl (fun a c => a * 10 + (c.toNat - '0'.toNat)) 0

/-- Optional fraction part (`.digits`); `none` on a bare dot. -/
def parseFrac (cs : List Char) : Option (List Char) :=
  match cs with
  | '.' :: rest =>
    if (rest.takeWhile Char.isDigit).isEmpty then none
    else some (rest.dropWhile Char.isDigit)
  | _ => some cs

/-- Optional exponent part (`e`/`E`, optional sign, digits). -/
def parseExp (cs : List Char) : Option (List Char) :=
  match cs with
  | c :: rest =>
    if c = 'e' ∨ c = 'E' then
      let rest2 :=
        match rest with
        | s :: r2 => if s = '+' ∨ s = '-' then r2 else rest
        | [] => rest
      if (rest2.takeWhile Char.isDigit).isEmpty then none
      else some (rest2.dropWhile Char.isDigit)
    else some cs
  | [] => some cs

/-- Unsigned JSON number: digits (no redundant leading zero), optional
fraction and exponent; the value kept is the integer part. -/
def parseNumAux (cs : List Char) : Option (Int × List Char) :=
  let ds := cs.takeWhile Char.isDigit
  if ds.isEmpty then none
  else if 1 < ds.length ∧ ds.headD '0' = '0' then none
  else do
    let cs2 ← parseFrac (cs.dropWhile Char.isDigit)
    let cs3 ← parseExp cs2
    some ((digitsToNat ds : Int), cs3)

def parseNumber (cs : List Char) : Option (Json × List Char) :=
  match cs with
  | '-' :: rest => (parseNumAux rest).map fun p => (Json.num (-p.1), p.2)
  | _ => (parseNumAux cs).map fun p => (Json.num p.1, p.2)

mutual

def parseValue : Nat → List Char → Option (Json × List Char)
  | 0, _ => none
  | fuel + 1, cs =>
    match skipWs cs with
    | 'n' :: 'u' :: 'l' :: 'l' :: rest => some (.null, rest)
    | 't' :: 'r' :: 'u' :: 'e' :: rest => some (.bool true, rest)
    | 'f' :: 'a' :: 'l' :: 's' :: 'e' :: rest => some (.bool false, rest)
    | '"' :: rest => (parseStringBody [] rest).map fun p => (.str p.1, p.2)
    | '[' :: rest => parseArrayRest fuel rest
    | '{' :: rest => parseObjectRest fuel rest
    | cs' => parseNumber cs'

/-- After `[`: either an immediately closed empty array or a comma-separated
element list. -/
def parseArrayRest : Nat → List Char → Option (Json × List Char)
  | 0, _ => none
  | fuel + 1, cs =>
    match skipWs cs with
    | ']' :: rest => some (.arr [], rest)
    | cs' => parseArrayElems fuel cs' []

def parseArrayElems : Nat → List Char → List Json → Option (Json × List Char)
  | 0, _, _ => none
  | fuel + 1, cs, acc =>
    match parseValue fuel cs with
    | none => none
    | some (v, rest) =>
      match skipWs rest with
      | ',' :: rest' => parseArrayElems fuel rest' (acc ++ [v])
      | ']' :: rest' => some (.arr (acc ++ [v]), rest')
      | _ => none

/-- After `{`: either an immediately closed empty object or a
comma-separated `"key": value` list. -/
def parseObjectRest : Nat → List Char → Option (Json × List Char)
  | 0, _ => none
  | fuel + 1, cs =>
    match skipWs cs with
    | '}' :: rest => some (.obj [], rest)
    | cs' => parseObjectFields fuel cs' []

def parseObjectFields : Nat → List Char → List (String × Json) →
    Option (Json × List Char)
  | 0, _, _ => none
  | fuel + 1, cs, acc =>
    match skipWs cs with
    | '"' :: rest =>
      match parseStringBody [] rest with
      | none => none
      | some (key, rest1) =>
        match skipWs rest1 with
        | ':' :: rest2 =>
          match parseValue fuel rest2 with
          | none => none
          | some (v, rest3) =>
            match skipWs rest3 with
            | ',' :: rest4 => parseObjectFields fuel rest4 (acc ++ [(key, v)])
            | '}' :: rest4 => some (.obj (acc ++ [(key, v)]), rest4)
            | _ => none
        | _ => none
    | _ => none

end

/-- `JSON.parse`: parse one value and require only whitespace to remain.
The fuel `3 * length + 3` dominates the parser's fuel use (at most three
recursive entries per consumed character). -/
def Json.parse (s : String) : Option Json :=
  match parseValue (3 * s.length + 3) s.toList with
  | some (v, rest) => if (skipWs rest).isEmpty then some v else none
  | none => none

/-! ### Reflector (`src/agent/reflector.ts`)

`reflect` receives the gateway response's `content` (nullable).  The JS
falsiness test `!response.content` is true for both `null` and `""`.  The
regex `/\{[\s\S]*\}/` matches from the first `{` to the last `}` when the
latter comes after the former.  The TS `as ReflectionResult` cast is
unchecked; `castReflection` models it by reading each expected field with
JS coercions (absent fields are falsy / 0 / empty). -/

/-- The substring matched by `content.match(/\{[\s\S]*\}/)`. -/
def jsonMatch (s : String) : Option String :=
  let cs := s.toList
  match findIndexP (fun c => c == '{') cs, findIndexP (fun c => c == '}') cs.reverse with
  | some i, some ri =>
    let j := cs.length - 1 - ri
    if i < j then some (String.mk ((cs.drop i).take (j - i + 1))) else none
  | _, _ => none

/-- Object field lookup; `JSON.parse` keeps the last duplicate key, hence
the reversed search. -/
def Json.getField (j : Json) (name : String) : Option Json :=
  match j with
  | .obj fields => (fields.reverse.find? fun f => f.1 == name).map fun f => f.2
  | _ => none

def jsTruthy : Option Json → Bool
  | none => false
  | some .null => false
  | some (.bool b) => b
  | some (.num n) => decide (n ≠ 0)
  | some (.str s) => decide (s ≠ "")
  | some (.arr _) => true
  | some (.obj _) => true

def jsNum : Option Json → Int
  | some (.num n) => n
  | _ => 0

def jsStrList : Option Json → List String
  | some (.arr xs) => xs.filterMap fun x =>
      match x with
      | .str s => some s
      | _ => none
  | _ => []

def castReflection (j : Json) : ReflectionResult :=
  { isComplete := jsTruthy (j.getField "isComplete")
    completeness := jsNum (j.getField "completeness")
    missingAreas := jsStrList (j.getField "missingAreas")
    suggestions := jsStrList (j.getField "suggestions")
    shouldContinue := jsTruthy (j.getField "shouldContinue") }

/-- Fallback for an empty (`null` or `""`) gateway response. -/
def reflectDefaultEmpty : ReflectionResult :=
  ⟨true, 70, [], ["Empty reflection response, proceeding with generation"], false⟩

/-- Fallback when no JSON is found or `JSON.parse` throws. -/
def reflectDefaultParse : ReflectionResult :=
  ⟨true, 70, [], ["Could not parse reflection, proceeding with generation"], false⟩

/-- `Reflector.reflect`, as a function of the gateway response's content. -/
def Reflector.reflect (content : Option String) : ReflectionResult :=
  match content with
  | none => reflectDefaultEmpty
  | some c =>
    if c = "" then reflectDefaultEmpty
    else
      match jsonMatch c with
      | none => reflectDefaultParse
      | some m =>
        match Json.parse m with
        | none => reflectDefaultParse
        | some j => castReflection j

/-- **C3.** For a gateway response whose content is `null`, or contains no
JSON object substring, or whose matched substring fails to parse, the
Reflector returns the default verdict: `isComplete = true`,
`completeness = 70`, `missingAreas = []` and `shouldContinue = false`, in
all three cases. -/
theorem C3_reflector_fallback (content : Option String)
    (h : content = none ∨
      (∃ s, content = some s ∧ jsonMatch s = none) ∨
      (∃ s m, content = some s ∧ jsonMatch s = some m ∧ Json.parse m = none)) :
    (Reflector.reflect content).isComplete = true ∧
    (Reflector.reflect content).completeness = 70 ∧
    (Reflector.reflect content).missingAreas = [] ∧
    (Reflector.reflect content).shouldContinue = false := by
  rcases h with rfl | ⟨s, rfl, hs⟩ | ⟨s, m, rfl, hs, hm⟩
  · exact ⟨rfl, rfl, rfl, rfl⟩
  · by_cases he : s = ""
    · subst he
      exact ⟨rfl, rfl, rfl, rfl⟩
    · simp only [Reflector.reflect, he, if_false, hs]
      exact ⟨rfl, rfl, rfl, rfl⟩
  · by_cases he : s = ""
    · subst he
      exact ⟨rfl, rfl, rfl, rfl⟩
    · simp only [Reflector.reflect, he, if_false, hs, hm]
      exact ⟨rfl, rfl, rfl, rfl⟩

/-- Witness for C3 at the three kinds of malformed input: a `null` content,
plain prose with no braces, and a brace-enclosed substring that is not
valid JSON (`tru` is truncated). -/
theorem C3_reflector_fallback_witness :
    (Reflector.reflect none).completeness = 70 ∧
    (Reflector.reflect (some "The documentation looks good overall.")).completeness = 70 ∧
    (Reflector.reflect (some "Verdict: \x7b\"isComplete\": tru\x7d")).completeness = 70 :=
  ⟨(C3_reflector_fallback none (Or.inl rfl)).2.1,
   (C3_reflector_fallback (some "The documentation looks good overall.")
      (Or.inr (Or.inl ⟨_, rfl, by rfl⟩))).2.1,
   (C3_reflector_fallback (some "Verdict: \x7b\"isComplete\": tru\x7d")
      (Or.inr (Or.inr ⟨_, _, rfl, by rfl, by rfl⟩))).2.1⟩

end Moles
